import Mathlib

/-!
Verification development for the operator expression algebra documented in the
repository: the `CircuitStateFn` class (state functions and measurements defined
by the action of a quantum circuit starting from |0⟩) and the surrounding
expression-tree algebra (Sum combinator from `add`, list broadcasting from
`assign_parameters`, structural `reduce`, `tensor`, `compose`, `adjoint`,
`to_matrix`, `sample`, `power`, `from_vector`).

The repository holds the API reference documentation of this class; the Python
implementation itself is not part of the repository, so every operation below is
modelled from the documented contract (the API reference under `src/` and the
specification), as indicated in each doc comment.
-/

/-- Modelled from the spec: amplitudes and coefficients are complex numbers.
We represent them as complex numbers with integer components (a Gaussian
integer model of the scalar ring) so that all definitions are executable and
equality is decidable by kernel reduction; every claim below is either a ring
identity, valid over any commutative ring of scalars with involutive
conjugation, or a structural property independent of the scalar values. -/
structure CC where
  re : ℤ
  im : ℤ
deriving DecidableEq, Repr

namespace CC

instance : Add CC := ⟨fun a b => ⟨a.re + b.re, a.im + b.im⟩⟩
instance : Mul CC := ⟨fun a b => ⟨a.re * b.re - a.im * b.im, a.re * b.im + a.im * b.re⟩⟩
instance : Neg CC := ⟨fun a => ⟨-a.re, -a.im⟩⟩
instance : Zero CC := ⟨⟨0, 0⟩⟩
instance : One CC := ⟨⟨1, 0⟩⟩

theorem ext2 {a b : CC} (h1 : a.re = b.re) (h2 : a.im = b.im) : a = b := by
  cases a; cases b; simp only [mk.injEq]; exact ⟨h1, h2⟩

@[simp] theorem add_re (a b : CC) : (a + b).re = a.re + b.re := rfl
@[simp] theorem add_im (a b : CC) : (a + b).im = a.im + b.im := rfl
@[simp] theorem mul_re (a b : CC) : (a * b).re = a.re * b.re - a.im * b.im := rfl
@[simp] theorem mul_im (a b : CC) : (a * b).im = a.re * b.im + a.im * b.re := rfl
@[simp] theorem neg_re (a : CC) : (-a).re = -a.re := rfl
@[simp] theorem neg_im (a : CC) : (-a).im = -a.im := rfl
@[simp] theorem zero_re : (0 : CC).re = 0 := rfl
@[simp] theorem zero_im : (0 : CC).im = 0 := rfl
@[simp] theorem one_re : (1 : CC).re = 1 := rfl
@[simp] theorem one_im : (1 : CC).im = 0 := rfl

instance : CommRing CC where
  add_assoc a b c := by apply ext2 <;> simp <;> ring
  zero_add a := by apply ext2 <;> simp
  add_zero a := by apply ext2 <;> simp
  add_comm a b := by apply ext2 <;> simp <;> ring
  left_distrib a b c := by apply ext2 <;> simp <;> ring
  right_distrib a b c := by apply ext2 <;> simp <;> ring
  zero_mul a := by apply ext2 <;> simp
  mul_zero a := by apply ext2 <;> simp
  mul_assoc a b c := by apply ext2 <;> simp <;> ring
  one_mul a := by apply ext2 <;> simp
  mul_one a := by apply ext2 <;> simp
  mul_comm a b := by apply ext2 <;> simp <;> ring
  neg_add_cancel a := by apply ext2 <;> simp
  nsmul := nsmulRec
  zsmul := zsmulRec

/-- Complex conjugation of a scalar coefficient. -/
def conj (a : CC) : CC := ⟨a.re, -a.im⟩

@[simp] theorem conj_conj (a : CC) : a.conj.conj = a := by
  simp [conj]

end CC

/-- Modelled from the spec: the errors of the documented error taxonomy that the
claims mention (CompositionError, ResourceGuardError, ParameterBroadcastError,
TypeConstructionError). -/
inductive OpError where
  | compositionError
  | resourceGuardError
  | parameterBroadcastError
  | typeConstructionError
deriving DecidableEq, Repr

/-- Modelled from the spec: a `CircuitStateFn` is a state function or
measurement defined by the action of a quantum circuit starting from |0⟩,
with a scalar coefficient and an `is_measurement` flag.  The implementation
of the circuit collaborator is outside the repository, so the circuit
primitive is represented by the statevector it prepares: a list of `2 ^
num_qubits` amplitudes indexed by basis labels. -/
structure CircuitStateFn where
  num_qubits : Nat
  amps : List CC
  coeff : CC
  is_measurement : Bool
deriving DecidableEq, Repr

/-- Modelled from the spec: a basis label is a fixed-length string of 0/1
symbols; we represent it as a list of booleans.  Per the documentation of
`eval`, the label is read with Qiskit's big-endian printing convention (qubit 0
at the end of the string), so `'1011'` indexes row 11: the index is the label
read as a binary numeral, most significant bit first. -/
def labelIndex (x : List Bool) : Nat :=
  x.foldl (fun acc b => 2 * acc + cond b 1 0) 0

/-- Modelled from the spec: `eval` on a basis label of length `num_qubits`
returns the complex value at the corresponding row of the vector representation
of the state function, scaled by the coefficient; labels of the wrong length
are invalid (the documentation: if `op.num_qubits == 5` then `op.eval('11')`
is not valid). -/
def CircuitStateFn.eval (sf : CircuitStateFn) (x : List Bool) : Option CC :=
  if x.length = sf.num_qubits then
    (sf.amps.get? (labelIndex x)).map (fun a => sf.coeff * a)
  else
    none

/-- Well-formedness of a state-function node: the stored statevector has one
amplitude per basis label. -/
def CircuitStateFn.WF (sf : CircuitStateFn) : Prop :=
  sf.amps.length = 2 ^ sf.num_qubits

instance (sf : CircuitStateFn) : Decidable sf.WF :=
  inferInstanceAs (Decidable (sf.amps.length = 2 ^ sf.num_qubits))

/-- Modelled from the spec: the expression tree of the operator algebra.  The
claims exercise the state-function leaves (`CircuitStateFn`) and the Sum
combinator produced by `add`; a Sum node owns an ordered sequence of children
plus one coefficient applied to the whole. -/
inductive OperatorNode where
  | leaf (sf : CircuitStateFn)
  | summed (children : List OperatorNode) (coeff : CC)

/-- Modelled from the spec: `numQubits` of a node; for a Sum all children share
the same count, so the head child's count is reported. -/
def OperatorNode.numQubits : OperatorNode → Nat
  | .leaf sf => sf.num_qubits
  | .summed [] _ => 0
  | .summed (t :: _) _ => t.numQubits

/-- Modelled from the spec: the category of a node ("State function" vs
"Measurement", the two categories a `CircuitStateFn` tree can have); for a Sum
all children share the category, so the head child's category is reported. -/
def OperatorNode.category : OperatorNode → Bool
  | .leaf sf => sf.is_measurement
  | .summed [] _ => false
  | .summed (t :: _) _ => t.category

mutual

/-- Modelled from the spec: the evaluation engine on a basis label.  A leaf
indexes its vector representation; a Sum evaluates each child with the same
front and sums the results, with coefficients distributed. -/
def OperatorNode.eval : OperatorNode → List Bool → Option CC
  | .leaf sf, x => sf.eval x
  | .summed cs c, x => (OperatorNode.evalChildren cs x).map (fun vs => c * vs.sum)

/-- Evaluation of a list of children on a common front, failing when a child
evaluation fails. -/
def OperatorNode.evalChildren : List OperatorNode → List Bool → Option (List CC)
  | [], _ => some []
  | t :: ts, x => do
      let v ← t.eval x
      let vs ← OperatorNode.evalChildren ts x
      some (v :: vs)

end

/-- Modelled from the spec: `add(other)` requires the operand to have the same
number of qubits and the same category as self; it returns a Sum node of the
two operands and performs no algebraic cancellation.  A category or size
mismatch is a composition error. -/
def OperatorNode.add (a b : OperatorNode) : Except OpError OperatorNode :=
  if a.numQubits = b.numQubits ∧ a.category = b.category then
    .ok (.summed [a, b] 1)
  else
    .error .compositionError

mutual

/-- Modelled from the spec: `adjoint()` returns a new node with
`is_measurement` flipped and the coefficient conjugated; on a Sum it also
takes the adjoint of every child. -/
def OperatorNode.adjoint : OperatorNode → OperatorNode
  | .leaf sf => .leaf ⟨sf.num_qubits, sf.amps, sf.coeff.conj, !sf.is_measurement⟩
  | .summed cs c => .summed (OperatorNode.adjointList cs) c.conj

/-- Pointwise adjoint of a list of children. -/
def OperatorNode.adjointList : List OperatorNode → List OperatorNode
  | [] => []
  | t :: ts => t.adjoint :: OperatorNode.adjointList ts

end

mutual

theorem adjoint_invol_node : (A : OperatorNode) → A.adjoint.adjoint = A
  | .leaf sf => by
      simp [OperatorNode.adjoint]
  | .summed cs c => by
      rw [OperatorNode.adjoint, OperatorNode.adjoint, adjoint_invol_list cs]
      simp

theorem adjoint_invol_list :
    (l : List OperatorNode) → OperatorNode.adjointList (OperatorNode.adjointList l) = l
  | [] => rfl
  | t :: ts => by
      rw [OperatorNode.adjointList, OperatorNode.adjointList, adjoint_invol_node t,
        adjoint_invol_list ts]

end

/-- C1: for every pair of trees A and B with equal numQubits and equal
category, and for every valid basis label x of that length, evaluation is
linear over addition: `A.add(B).eval(x) == A.eval(x) + B.eval(x)`. -/
theorem add_eval_linear (A B : OperatorNode) (x : List Bool) (a b : CC)
    (hq : A.numQubits = B.numQubits) (hc : A.category = B.category)
    (ha : A.eval x = some a) (hb : B.eval x = some b) :
    ∃ S, A.add B = Except.ok S ∧ S.eval x = some (a + b) := by
  refine ⟨.summed [A, B] 1, ?_, ?_⟩
  · simp [OperatorNode.add, hq, hc]
  · simp [OperatorNode.eval, OperatorNode.evalChildren, ha, hb]

/-- Witness for C1 at a concrete pair of one-qubit state functions. -/
theorem add_eval_linear_witness :
    ∃ S, (OperatorNode.leaf ⟨1, [⟨1, 0⟩, ⟨0, 0⟩], 1, false⟩).add
        (.leaf ⟨1, [⟨0, 0⟩, ⟨1, 0⟩], ⟨2, 0⟩, false⟩) = Except.ok S ∧
      S.eval [false] = some (⟨1, 0⟩ + ⟨0, 0⟩) :=
  add_eval_linear _ _ _ _ _ (by decide) (by decide) (by decide) (by decide)

/-- Modelled from the spec: `tensor(other)` concatenates qubit index spaces
with the convention that the right-hand operand occupies the lower-indexed
qubits: `A.tensor(B)` places B's qubits at positions `[0, B.numQubits)` and
A's at `[B.numQubits, B.numQubits + A.numQubits)`.  Since a basis label is
printed big-endian (qubit 0 at the end of the string), the statevector of the
product lists A's index as the major axis: the amplitude at label `x ++ y` is
the amplitude of A at `x` times the amplitude of B at `y`.  Coefficients
multiply. -/
def CircuitStateFn.tensor (a b : CircuitStateFn) : CircuitStateFn :=
  ⟨a.num_qubits + b.num_qubits,
   a.amps.flatMap (fun u => b.amps.map (fun v => u * v)),
   a.coeff * b.coeff,
   a.is_measurement⟩

theorem labelIndex_cons (b : Bool) (t : List Bool) :
    labelIndex (b :: t) = t.foldl (fun acc c => 2 * acc + cond c 1 0) (cond b 1 0) := by
  simp [labelIndex]

theorem labelIndex_foldl (y : List Bool) (i : Nat) :
    y.foldl (fun acc b => 2 * acc + cond b 1 0) i = i * 2 ^ y.length + labelIndex y := by
  induction y generalizing i with
  | nil => simp [labelIndex]
  | cons b t ih =>
      rw [List.foldl_cons, ih, labelIndex_cons, ih (cond b 1 0)]
      simp [List.length_cons, Nat.pow_succ]
      ring

theorem labelIndex_append (x y : List Bool) :
    labelIndex (x ++ y) = labelIndex x * 2 ^ y.length + labelIndex y := by
  rw [labelIndex, List.foldl_append, labelIndex_foldl]
  rfl

theorem flatMap_mul_get (l1 l2 : List CC) (i j : Nat) (u v : CC)
    (hu : l1.get? i = some u) (hv : l2.get? j = some v) :
    (l1.flatMap (fun p => l2.map (fun q => p * q))).get? (i * l2.length + j) =
      some (u * v) := by
  induction l1 generalizing i with
  | nil => simp at hu
  | cons u0 tl ih =>
      cases i with
      | zero =>
          have hj : j < l2.length := List.get?_eq_some.mp hv |>.1
          rw [List.flatMap_cons, Nat.zero_mul, Nat.zero_add]
          rw [List.get?_append (by simpa using hj), List.get?_map, hv]
          simp at hu
          rw [hu]
          simp
      | succ i' =>
          rw [List.flatMap_cons]
          have hlen : (l2.map (fun q => u0 * q)).length = l2.length := by simp
          have hge : l2.length ≤ (i' + 1) * l2.length + j := by
            calc l2.length ≤ (i' + 1) * l2.length := by
                  have := Nat.succ_le_succ (Nat.zero_le i')
                  exact Nat.le_mul_of_pos_left _ (Nat.succ_pos i') |>.trans
                    (Nat.le_of_eq rfl)
              _ ≤ (i' + 1) * l2.length + j := Nat.le_add_right _ _
          rw [List.get?_append_right (by simpa [hlen] using hge)]
          rw [hlen]
          have harith : (i' + 1) * l2.length + j - l2.length = i' * l2.length + j := by
            rw [Nat.succ_mul]
            omega
          rw [harith]
          exact ih i' (by simpa using hu)

/-- C3: tensor uses the fixed qubit-order convention in which the right-hand
operand occupies the lower-indexed qubits: `A.tensor(B)` has
`A.numQubits + B.numQubits` qubits with B's at the low positions (the tail of
the big-endian basis label), and for all basis labels x over A's qubits and y
over B's qubits, `A.tensor(B).eval(x ++ y) == A.eval(x) * B.eval(y)`. -/
theorem tensor_eval_product (a b : CircuitStateFn) (x y : List Bool) (va vb : CC)
    (hb : b.WF)
    (hx : a.eval x = some va) (hy : b.eval y = some vb) :
    (a.tensor b).num_qubits = a.num_qubits + b.num_qubits ∧
    (a.tensor b).eval (x ++ y) = some (va * vb) := by
  refine ⟨rfl, ?_⟩
  rw [CircuitStateFn.eval] at hx hy
  split at hx
  case isFalse => exact absurd hx (by simp)
  case isTrue hlx =>
  split at hy
  case isFalse => exact absurd hy (by simp)
  case isTrue hly =>
  obtain ⟨ax, hax, hvax⟩ := Option.map_eq_some'.mp hx
  obtain ⟨bx, hbx, hvbx⟩ := Option.map_eq_some'.mp hy
  rw [CircuitStateFn.eval]
  have hlen : (x ++ y).length = (a.tensor b).num_qubits := by
    simp [CircuitStateFn.tensor, hlx, hly]
  rw [if_pos hlen]
  have hidx : labelIndex (x ++ y) = labelIndex x * b.amps.length + labelIndex y := by
    rw [labelIndex_append, hly, hb]
  show ((a.tensor b).amps.get? (labelIndex (x ++ y))).map
      (fun c => (a.tensor b).coeff * c) = some (va * vb)
  rw [hidx]
  have hget := flatMap_mul_get a.amps b.amps (labelIndex x) (labelIndex y) ax bx hax hbx
  show ((a.amps.flatMap (fun p => b.amps.map (fun q => p * q))).get?
      (labelIndex x * b.amps.length + labelIndex y)).map
      (fun c => (a.coeff * b.coeff) * c) = some (va * vb)
  rw [hget]
  simp only [Option.map_some']
  rw [← hvax, ← hvbx]
  ring_nf

/-- Witness for C3 at concrete one-qubit state functions. -/
theorem tensor_eval_product_witness :
    ((⟨1, [⟨1, 0⟩, ⟨2, 0⟩], 1, false⟩ : CircuitStateFn).tensor
        ⟨1, [⟨3, 0⟩, ⟨4, 0⟩], 1, false⟩).num_qubits = 1 + 1 ∧
    ((⟨1, [⟨1, 0⟩, ⟨2, 0⟩], 1, false⟩ : CircuitStateFn).tensor
        ⟨1, [⟨3, 0⟩, ⟨4, 0⟩], 1, false⟩).eval ([true] ++ [false]) =
      some (⟨2, 0⟩ * ⟨3, 0⟩) :=
  tensor_eval_product _ _ _ _ _ _ (by decide) (by decide) (by decide)

/-- Modelled from the spec: `compose(other)` (linear-algebra style, `A@B(x) =
A(B(x))`) is not defined for state functions as the left operand: it requires
self to be a measurement, otherwise it fails with a composition error (the
documentation: "If self is not a measurement, it cannot be composed from the
right").  On success it returns the composition pair without mutating either
operand. -/
def CircuitStateFn.compose (self : CircuitStateFn) (other : OperatorNode) :
    Except OpError (CircuitStateFn × OperatorNode) :=
  if self.is_measurement = false then .error .compositionError
  else .ok (self, other)

/-- C4: for every state-function node S that is not a measurement and every
operand B, `S.compose(B)` fails with a CompositionError, and compose succeeds
only when self is a measurement; operands are never mutated (all operations
return new values). -/
theorem compose_left_requires_measurement :
    (∀ (S : CircuitStateFn) (B : OperatorNode), S.is_measurement = false →
      S.compose B = Except.error OpError.compositionError) ∧
    (∀ (S : CircuitStateFn) (B : OperatorNode) r, S.compose B = Except.ok r →
      S.is_measurement = true) := by
  constructor
  · intro S B h
    simp [CircuitStateFn.compose, h]
  · intro S B r h
    by_contra hcon
    rw [CircuitStateFn.compose, if_pos (Bool.not_eq_true _ |>.mp hcon)] at h
    exact absurd h (by simp)

/-- Witness for C4: a concrete non-measurement state function refuses to
compose from the left. -/
theorem compose_left_requires_measurement_witness :
    (⟨1, [⟨1, 0⟩, 0], 1, false⟩ : CircuitStateFn).compose
        (.leaf ⟨1, [⟨1, 0⟩, 0], 1, false⟩) =
      Except.error OpError.compositionError :=
  compose_left_requires_measurement.1 _ _ (by decide)

/-- Modelled from the spec: `to_matrix(massive)` materializes the dense
representation (for a state function, the vector of the evaluations on every
basis binary string); it fails with a ResourceGuardError when `num_qubits >
16` and the `massive` opt-in is not set. -/
def CircuitStateFn.to_matrix (sf : CircuitStateFn) (massive : Bool) :
    Except OpError (List CC) :=
  if 16 < sf.num_qubits ∧ massive = false then .error .resourceGuardError
  else .ok ((List.range (2 ^ sf.num_qubits)).map (fun i => sf.coeff * sf.amps.getD i 0))

/-- C5: for every tree T with more than 16 qubits, `to_matrix` without the
large-allocation opt-in fails with a ResourceGuardError, and with the opt-in
it returns the dense representation of dimension `2 ^ numQubits`. -/
theorem to_matrix_guard (sf : CircuitStateFn) (h : 16 < sf.num_qubits) :
    sf.to_matrix false = Except.error OpError.resourceGuardError ∧
    ∃ v, sf.to_matrix true = Except.ok v ∧ v.length = 2 ^ sf.num_qubits := by
  constructor
  · simp [CircuitStateFn.to_matrix, h]
  · refine ⟨(List.range (2 ^ sf.num_qubits)).map (fun i => sf.coeff * sf.amps.getD i 0),
      ?_, by simp⟩
    rw [CircuitStateFn.to_matrix, if_neg (by simp)]

/-- Witness for C5 at an 18-qubit node. -/
theorem to_matrix_guard_witness :
    (⟨18, [], 1, false⟩ : CircuitStateFn).to_matrix false =
        Except.error OpError.resourceGuardError ∧
    ∃ v, (⟨18, [], 1, false⟩ : CircuitStateFn).to_matrix true = Except.ok v ∧
      v.length = 2 ^ 18 :=
  to_matrix_guard _ (by decide)

/-- Modelled from the spec: `power(exponent)` (compose with self multiple
times) is undefined for state functions and always raises (the documentation:
"Raises ValueError – This function is not defined for StateFns"); in the
spec taxonomy this is a composition error.  Being a pure function, it leaves
the node unchanged. -/
def CircuitStateFn.power (_ : CircuitStateFn) (_ : ℤ) :
    Except OpError (CircuitStateFn × CircuitStateFn) :=
  .error .compositionError

/-- C9: for every state-function node S and every integer exponent n,
`S.power(n)` raises an error and never returns a result. -/
theorem power_always_fails (S : CircuitStateFn) (n : ℤ) :
    S.power n = Except.error OpError.compositionError ∧
    ∀ r, ¬ S.power n = Except.ok r :=
  ⟨rfl, fun r h => by simp [CircuitStateFn.power] at h⟩

/-- Witness for C9 at a concrete node and exponent. -/
theorem power_always_fails_witness :
    (⟨1, [⟨1, 0⟩, 0], 1, false⟩ : CircuitStateFn).power 2 =
      Except.error OpError.compositionError :=
  (power_always_fails _ 2).1

/-- Modelled from the spec: the static constructor `from_vector(statevector)`
builds a circuit-backed state function through the circuit Initializer; the
documentation records that a vector with complex values which the Initializer
cannot handle is rejected with a ValueError (a type-construction error in the
spec taxonomy), so construction succeeds exactly on real-representable
vectors.  The number of qubits is inferred from the vector length via a
kernel-computable floor base-2 logarithm. -/
def floorLog2 (n : Nat) : Nat :=
  (List.range n).countP (fun k => 2 ^ (k + 1) ≤ n)

/-- Modelled from the spec: the `from_vector` constructor itself; see
`floorLog2` above for the length-to-qubit-count conversion. -/
def CircuitStateFn.from_vector (statevector : List CC) :
    Except OpError CircuitStateFn :=
  if statevector.all (fun c => decide (c.im = 0)) then
    .ok ⟨floorLog2 statevector.length, statevector, 1, false⟩
  else
    .error .typeConstructionError

/-- C10: some statevector with complex (non-real-representable) values makes
`from_vector` fail with an error rather than return a circuit-backed state
function, and `from_vector` succeeds only on vectors whose entries the
initializer can handle (all imaginary parts zero). -/
theorem from_vector_rejects_complex :
    (∃ v : List CC, CircuitStateFn.from_vector v =
      Except.error OpError.typeConstructionError) ∧
    (∀ v sf, CircuitStateFn.from_vector v = Except.ok sf → ∀ c ∈ v, c.im = 0) := by
  constructor
  · exact ⟨[⟨0, 1⟩], rfl⟩
  · intro v sf h c hc
    rw [CircuitStateFn.from_vector] at h
    split at h
    case isTrue hall =>
      have := List.all_eq_true.mp hall c hc
      simpa using this
    case isFalse => exact absurd h (by simp)

/-- Witness for C10: a concrete successful construction, whose input is
therefore all-real. -/
theorem from_vector_rejects_complex_witness :
    ∀ c ∈ [(⟨1, 0⟩ : CC)], c.im = 0 :=
  from_vector_rejects_complex.2 [⟨1, 0⟩] ⟨0, [⟨1, 0⟩], 1, false⟩ rfl

/-- Modelled from the spec: scalar multiplication of a node multiplies into
the node's coefficient and returns a new node. -/
def OperatorNode.mulScalar (s : CC) : OperatorNode → OperatorNode
  | .leaf sf => .leaf ⟨sf.num_qubits, sf.amps, s * sf.coeff, sf.is_measurement⟩
  | .summed cs c => .summed cs (s * c)

/-- Coefficient carried at the root of a node. -/
def OperatorNode.coeffOf : OperatorNode → CC
  | .leaf sf => sf.coeff
  | .summed _ c => c

/-- Terms a node contributes when merged into an enclosing Sum: a leaf
contributes itself, a nested Sum contributes its children with the nested
coefficient distributed onto them. -/
def OperatorNode.toTerms : OperatorNode → List OperatorNode
  | .leaf sf => [.leaf sf]
  | .summed cs c => cs.map (OperatorNode.mulScalar c)

/-- One flattening pass over the children of a Sum: merge nested Sums into
the enclosing Sum and drop zero-coefficient terms. -/
def flattenTerms (l : List OperatorNode) : List OperatorNode :=
  (l.flatMap OperatorNode.toTerms).filter (fun t => decide (t.coeffOf ≠ 0))

mutual

/-- Modelled from the spec: the reduction engine collapses redundant
structure without changing semantics: it merges nested Sums into one Sum,
drops zero-coefficient terms, collapses a Sum of one term to that term, and
returns an already-irreducible node (such as a plain `CircuitStateFn` leaf,
for which the documentation states "If no reduction is available, just
returns self") unchanged. -/
def OperatorNode.reduce : OperatorNode → OperatorNode
  | .leaf sf => .leaf sf
  | .summed cs c =>
      match flattenTerms (OperatorNode.reduceList cs) with
      | [t] => t.mulScalar c
      | ts => .summed ts c

/-- Pointwise reduction of a list of children. -/
def OperatorNode.reduceList : List OperatorNode → List OperatorNode
  | [] => []
  | t :: ts => t.reduce :: OperatorNode.reduceList ts

end

/-- A node acceptable as the term of a fully-reduced Sum: a leaf with a
nonzero coefficient. -/
def OperatorNode.IsFlatTerm : OperatorNode → Prop
  | .leaf sf => sf.coeff ≠ 0
  | .summed _ _ => False

/-- An irreducible node: a leaf, or a Sum whose children are all flat terms
and which is not a singleton (a singleton Sum collapses to its term). -/
def OperatorNode.Irreducible : OperatorNode → Prop
  | .leaf _ => True
  | .summed cs _ => (∀ t ∈ cs, t.IsFlatTerm) ∧ cs.length ≠ 1

theorem isFlatTerm_leaf (t : OperatorNode) (h : t.IsFlatTerm) :
    ∃ sf : CircuitStateFn, t = .leaf sf ∧ sf.coeff ≠ 0 := by
  cases t with
  | leaf sf => exact ⟨sf, rfl, h⟩
  | summed cs c => exact absurd h (by simp [OperatorNode.IsFlatTerm])

theorem mulScalar_leaf_shape (s : CC) (t : OperatorNode) (h : ∃ sf, t = OperatorNode.leaf sf) :
    ∃ sf, t.mulScalar s = OperatorNode.leaf sf := by
  obtain ⟨sf, rfl⟩ := h
  exact ⟨_, rfl⟩

theorem toTerms_leaf_shape (t : OperatorNode) (h : t.Irreducible) :
    ∀ s ∈ t.toTerms, ∃ sf, s = OperatorNode.leaf sf := by
  cases t with
  | leaf sf =>
      intro s hs
      simp [OperatorNode.toTerms] at hs
      exact ⟨sf, hs⟩
  | summed cs c =>
      intro s hs
      simp [OperatorNode.toTerms] at hs
      obtain ⟨u, hu, rfl⟩ := hs
      have hflat := h.1 u hu
      obtain ⟨sf, rfl, _⟩ := isFlatTerm_leaf u hflat
      exact ⟨_, rfl⟩

theorem flattenTerms_flat (l : List OperatorNode) (h : ∀ t ∈ l, t.Irreducible) :
    ∀ s ∈ flattenTerms l, s.IsFlatTerm := by
  intro s hs
  rw [flattenTerms, List.mem_filter] at hs
  obtain ⟨hmem, hnz⟩ := hs
  rw [List.mem_flatMap] at hmem
  obtain ⟨t, ht, hst⟩ := hmem
  obtain ⟨sf, rfl⟩ := toTerms_leaf_shape t (h t ht) s hst
  have : sf.coeff ≠ 0 := by simpa [OperatorNode.coeffOf] using of_decide_eq_true hnz
  simpa [OperatorNode.IsFlatTerm] using this

mutual

theorem reduce_irreducible : (A : OperatorNode) → A.reduce.Irreducible
  | .leaf sf => by
      rw [OperatorNode.reduce]
      simp [OperatorNode.Irreducible]
  | .summed cs c => by
      rw [OperatorNode.reduce]
      have hall := reduceList_irreducible cs
      have hflat := flattenTerms_flat (OperatorNode.reduceList cs) hall
      split
      case h_1 t heq =>
        have : t.IsFlatTerm := hflat t (by rw [heq]; exact List.mem_singleton_self t)
        obtain ⟨sf, rfl, _⟩ := isFlatTerm_leaf t this
        simp [OperatorNode.mulScalar, OperatorNode.Irreducible]
      case h_2 =>
        rename_i x hne
        refine ⟨fun t ht => hflat t ht, ?_⟩
        intro hlen
        obtain ⟨t, hts⟩ := List.length_eq_one.mp hlen
        exact hne t hts

theorem reduceList_irreducible :
    (l : List OperatorNode) → ∀ t ∈ OperatorNode.reduceList l, t.Irreducible
  | [] => by intro t ht; simp [OperatorNode.reduceList] at ht
  | u :: us => by
      intro t ht
      rw [OperatorNode.reduceList] at ht
      rcases List.mem_cons.mp ht with h | h
      · rw [h]; exact reduce_irreducible u
      · exact reduceList_irreducible us t h

end

theorem reduceList_fixed (l : List OperatorNode) (h : ∀ t ∈ l, t.reduce = t) :
    OperatorNode.reduceList l = l := by
  induction l with
  | nil => rfl
  | cons u us ih =>
      rw [OperatorNode.reduceList, h u (List.mem_cons_self u us),
        ih (fun t ht => h t (List.mem_cons_of_mem u ht))]

theorem flattenTerms_fixed (l : List OperatorNode) (h : ∀ t ∈ l, t.IsFlatTerm) :
    flattenTerms l = l := by
  rw [flattenTerms]
  have hflat : l.flatMap OperatorNode.toTerms = l := by
    induction l with
    | nil => rfl
    | cons u us ih =>
        obtain ⟨sf, rfl, _⟩ := isFlatTerm_leaf u (h u (List.mem_cons_self u us))
        rw [List.flatMap_cons, ih (fun t ht => h t (List.mem_cons_of_mem _ ht))]
        rfl
  rw [hflat]
  apply List.filter_eq_self.mpr
  intro t ht
  obtain ⟨sf, rfl, hnz⟩ := isFlatTerm_leaf t (h t ht)
  simpa [OperatorNode.coeffOf] using hnz

theorem reduce_fixed (A : OperatorNode) (h : A.Irreducible) : A.reduce = A := by
  cases A with
  | leaf sf => rw [OperatorNode.reduce]
  | summed cs c =>
      obtain ⟨hflat, hlen⟩ := h
      have hred : OperatorNode.reduceList cs = cs := by
        apply reduceList_fixed
        intro t ht
        obtain ⟨sf, rfl, _⟩ := isFlatTerm_leaf t (hflat t ht)
        rw [OperatorNode.reduce]
      rw [OperatorNode.reduce, hred, flattenTerms_fixed cs hflat]
      match cs, hlen with
      | [], _ => rfl
      | t1 :: t2 :: ts, _ => rfl

/-- C6: reduce is idempotent: for every tree A,
`reduce(reduce(A)) == reduce(A)`, and `reduce()` applied to an
already-irreducible node returns the node itself. -/
theorem reduce_idempotent :
    (∀ A : OperatorNode, A.reduce.reduce = A.reduce) ∧
    (∀ A : OperatorNode, A.Irreducible → A.reduce = A) :=
  ⟨fun A => reduce_fixed _ (reduce_irreducible A), reduce_fixed⟩

/-- Witness for C6: a concrete irreducible leaf is returned unchanged by
reduce. -/
theorem reduce_idempotent_witness :
    (OperatorNode.leaf ⟨1, [⟨1, 0⟩, 0], 1, false⟩).reduce =
      .leaf ⟨1, [⟨1, 0⟩, 0], 1, false⟩ :=
  reduce_idempotent.2 _ True.intro

/-- Modelled from the spec: a scalar coefficient is a number or a named
symbolic placeholder awaiting substitution. -/
inductive PCoeff where
  | const (c : CC)
  | param (name : String)
deriving DecidableEq, Repr

/-- Modelled from the spec: a state-function node whose coefficient may still
be a symbolic placeholder, the form on which the parameter binder operates. -/
structure PStateFn where
  num_qubits : Nat
  amps : List CC
  coeff : PCoeff
  is_measurement : Bool
deriving DecidableEq, Repr

/-- Modelled from the spec: an entry of a parameter-binding request maps a
placeholder to one value or to an ordered sequence of values. -/
inductive BindValue where
  | single (v : CC)
  | many (vs : List CC)
deriving DecidableEq, Repr

/-- Modelled from the spec: the binder returns one fully-bound tree, or — when
sequences are bound — an OpList of one structurally independent copy per
index position (value semantics: copies share no mutable state). -/
inductive AssignResult where
  | one (t : PStateFn)
  | opList (ts : List PStateFn)
deriving DecidableEq, Repr

/-- Look a placeholder up in the binding request. -/
def lookupParam (d : List (String × BindValue)) (p : String) : Option BindValue :=
  (d.find? (fun e => e.1 == p)).map (fun e => e.2)

/-- Substitution of a coefficient at broadcast index `i`: a concrete
coefficient is unchanged; a placeholder bound to a single value becomes that
value, one bound to a sequence becomes the value at index `i`, and an unbound
placeholder stays symbolic. -/
def PCoeff.bindAt (d : List (String × BindValue)) (i : Nat) : PCoeff → PCoeff
  | .const c => .const c
  | .param p =>
      match lookupParam d p with
      | none => .param p
      | some (.single v) => .const v
      | some (.many vs) => .const (vs.getD i 0)

/-- Substitution applied to a node at broadcast index `i`; returns a new
node. -/
def PStateFn.bindAt (sf : PStateFn) (d : List (String × BindValue)) (i : Nat) :
    PStateFn :=
  ⟨sf.num_qubits, sf.amps, sf.coeff.bindAt d i, sf.is_measurement⟩

/-- Lengths of all sequence-valued entries of a binding request. -/
def seqLengths (d : List (String × BindValue)) : List Nat :=
  d.filterMap (fun e =>
    match e.2 with
    | .many vs => some vs.length
    | .single _ => none)

/-- Modelled from the spec: `assign_parameters(param_dict)` binds scalar
values to placeholders; if any placeholder maps to a sequence, every sequence
in the request must have the same length (otherwise a
ParameterBroadcastError), and one fully-bound copy per index position is
returned as an OpList; with no sequences a single bound tree is returned. -/
def PStateFn.assign_parameters (sf : PStateFn) (d : List (String × BindValue)) :
    Except OpError AssignResult :=
  match seqLengths d with
  | [] => .ok (.one (sf.bindAt d 0))
  | n :: rest =>
      if rest.all (fun m => m == n) then
        .ok (.opList ((List.range n).map (fun i => sf.bindAt d i)))
      else
        .error .parameterBroadcastError

/-- Evaluation of a possibly-parametrized node: defined only once the
coefficient is concrete. -/
def PStateFn.eval (sf : PStateFn) (x : List Bool) : Option CC :=
  match sf.coeff with
  | .const c => CircuitStateFn.eval ⟨sf.num_qubits, sf.amps, c, sf.is_measurement⟩ x
  | .param _ => none

/-- Result of binding one placeholder to one value and evaluating: the
individual-binding reference against which broadcast copies are compared. -/
def bindSingleEval (T : PStateFn) (p : String) (v : CC) (x : List Bool) :
    Option CC :=
  match T.assign_parameters [(p, BindValue.single v)] with
  | .ok (.one T') => T'.eval x
  | _ => none

theorem map_range_getD (vs : List CC) (g : CC → Option CC) :
    (List.range vs.length).map (fun i => g (vs.getD i 0)) = vs.map g := by
  induction vs with
  | nil => rfl
  | cons v tl ih =>
      rw [List.length_cons, List.range_succ_eq_map, List.map_cons, List.map_map,
        List.map_cons]
      congr 1

theorem bindAt_eval_pointwise (T : PStateFn) (p : String) (vs : List CC)
    (x : List Bool) (i : Nat) :
    (T.bindAt [(p, .many vs)] i).eval x = bindSingleEval T p (vs.getD i 0) x := by
  rw [bindSingleEval]
  show (T.bindAt [(p, .many vs)] i).eval x =
    match T.assign_parameters [(p, BindValue.single (vs.getD i 0))] with
    | .ok (.one T') => T'.eval x
    | _ => none
  rw [PStateFn.assign_parameters]
  show (T.bindAt [(p, .many vs)] i).eval x =
    (T.bindAt [(p, BindValue.single (vs.getD i 0))] 0).eval x
  rw [PStateFn.bindAt, PStateFn.bindAt]
  cases hc : T.coeff with
  | const c => rfl
  | param q =>
      rw [PCoeff.bindAt, PCoeff.bindAt]
      by_cases hq : q = p
      · subst hq
        simp [lookupParam, List.find?]
      · have hpq : (p == q) = false := beq_eq_false_iff_ne.mpr (fun h => hq h.symm)
        simp [lookupParam, List.find?, hpq]

/-- C7: binding one placeholder to a list of n values (n ≥ 1) and evaluating
yields the same sequence of n results as performing n individual single-value
bindings and evaluations, with the list binding returned as an OpList of
(structurally independent) copies; binding placeholders to sequences of
mismatched lengths raises a ParameterBroadcastError. -/
theorem assign_broadcast (T : PStateFn) (p : String) (vs : List CC)
    (x : List Bool) (hn : vs ≠ []) :
    (∃ copies, T.assign_parameters [(p, .many vs)] =
        Except.ok (.opList copies) ∧
      copies.length = vs.length ∧
      copies.map (fun c => c.eval x) =
        vs.map (fun v => bindSingleEval T p v x)) ∧
    (∀ (q : String) (ws : List CC), vs.length ≠ ws.length →
      T.assign_parameters [(p, .many vs), (q, .many ws)] =
        Except.error OpError.parameterBroadcastError) := by
  constructor
  · refine ⟨(List.range vs.length).map (fun i => T.bindAt [(p, .many vs)] i), ?_, ?_, ?_⟩
    · rw [PStateFn.assign_parameters]
      show Except.ok (AssignResult.opList ((List.range vs.length).map
        (fun i => T.bindAt [(p, BindValue.many vs)] i))) = _
      rfl
    · simp
    · rw [List.map_map]
      rw [← map_range_getD vs (fun v => bindSingleEval T p v x)]
      apply List.map_congr_left
      intro i hi
      exact bindAt_eval_pointwise T p vs x i
  · intro q ws hlen
    have hne : (ws.length == vs.length) = false :=
      beq_eq_false_iff_ne.mpr (fun h => hlen h.symm)
    simp [PStateFn.assign_parameters, seqLengths, hne]

/-- Witness for C7 at a concrete parametrized node and a two-value binding
list. -/
theorem assign_broadcast_witness :
    (∃ copies, (⟨1, [⟨1, 0⟩, 0], .param "theta", false⟩ : PStateFn).assign_parameters
        [("theta", .many [⟨2, 0⟩, ⟨3, 0⟩])] = Except.ok (.opList copies) ∧
      copies.length = ([⟨2, 0⟩, ⟨3, 0⟩] : List CC).length ∧
      copies.map (fun c => c.eval [true]) =
        ([⟨2, 0⟩, ⟨3, 0⟩] : List CC).map
          (fun v => bindSingleEval ⟨1, [⟨1, 0⟩, 0], .param "theta", false⟩ "theta" v [true])) ∧
    (∀ (q : String) (ws : List CC), ([⟨2, 0⟩, ⟨3, 0⟩] : List CC).length ≠ ws.length →
      (⟨1, [⟨1, 0⟩, 0], .param "theta", false⟩ : PStateFn).assign_parameters
          [("theta", .many [⟨2, 0⟩, ⟨3, 0⟩]), (q, .many ws)] =
        Except.error OpError.parameterBroadcastError) :=
  assign_broadcast _ _ _ _ (by decide)

/-- Modelled from the spec: the ordering rule documented for `sample` output:
an entry precedes another when its probability is strictly larger, or the
probabilities are equal and its bitstring label is lexicographically no
larger (the deterministic tie-break the spec fixes).  Labels compare under
the lexicographic order of `List Bool`. -/
def sampleRel (a b : List Bool × ℚ) : Prop :=
  b.2 < a.2 ∨ (a.2 = b.2 ∧ a.1 ≤ b.1)

instance : DecidableRel sampleRel := fun a b =>
  inferInstanceAs (Decidable (b.2 < a.2 ∨ (a.2 = b.2 ∧ a.1 ≤ b.1)))

instance : IsTotal (List Bool × ℚ) sampleRel := by
  constructor
  intro a b
  rcases lt_trichotomy a.2 b.2 with h | h | h
  · exact Or.inr (Or.inl h)
  · rcases le_total a.1 b.1 with hl | hl
    · exact Or.inl (Or.inr ⟨h, hl⟩)
    · exact Or.inr (Or.inr ⟨h.symm, hl⟩)
  · exact Or.inl (Or.inl h)

instance : IsTrans (List Bool × ℚ) sampleRel := by
  constructor
  intro a b c hab hbc
  rcases hab with h1 | ⟨e1, l1⟩ <;> rcases hbc with h2 | ⟨e2, l2⟩
  · exact Or.inl (h2.trans h1)
  · exact Or.inl (e2 ▸ h1)
  · exact Or.inl (by rw [e1]; exact h2)
  · exact Or.inr ⟨e1.trans e2, l1.trans l2⟩

/-- Modelled from the spec: `sample(shots, massive, reverse_endianness)`
delegates circuit execution to the collaborator; here the collaborator's
returned outcome counts (bitstring, count) are the input, and the core's
post-processing converts them into a probability-normalized mapping
(count over total) ordered by descending probability with ties broken by
ascending lexicographic label order. -/
def sample (counts : List (List Bool × Nat)) : List (List Bool × ℚ) :=
  List.insertionSort sampleRel
    (counts.map (fun e => (e.1, (e.2 : ℚ) / ((counts.map (fun e2 => e2.2)).sum : Nat))))

/-- C8: for every collaborator outcome, sample returns a
probability-normalized mapping from bitstring to probability (values sum
to 1, given a positive total count), ordered by descending probability with
equal-probability ties broken deterministically by ascending lexicographic
order of the labels. -/
theorem sample_normalized_sorted (counts : List (List Bool × Nat))
    (h : 0 < (counts.map (fun e => e.2)).sum) :
    ((sample counts).map (fun e => e.2)).sum = 1 ∧
    List.Sorted sampleRel (sample counts) := by
  constructor
  · have hperm : (sample counts).Perm
        (counts.map (fun e =>
          (e.1, (e.2 : ℚ) / ((counts.map (fun e2 => e2.2)).sum : Nat)))) :=
      List.perm_insertionSort sampleRel _
    rw [(hperm.map (fun e => e.2)).sum_eq, List.map_map]
    have htot : (((counts.map (fun e2 => e2.2)).sum : Nat) : ℚ) ≠ 0 := by
      exact_mod_cast Nat.pos_iff_ne_zero.mp h
    show (counts.map (fun e => (e.2 : ℚ) /
      ((counts.map (fun e2 => e2.2)).sum : Nat))).sum = 1
    simp only [div_eq_mul_inv]
    rw [List.sum_map_mul_right]
    have hmm : counts.map (fun e => (e.2 : ℚ)) =
        (counts.map (fun e2 => e2.2)).map (fun n : Nat => (n : ℚ)) := by
      rw [List.map_map]
      rfl
    rw [hmm, ← Nat.cast_list_sum]
    exact mul_inv_cancel₀ htot
  · exact List.sorted_insertionSort sampleRel _

/-- Witness for C8 at a concrete two-outcome count map with a tie. -/
theorem sample_normalized_sorted_witness :
    ((sample [([true], 1), ([false], 1)]).map (fun e => e.2)).sum = 1 ∧
    List.Sorted sampleRel (sample [([true], 1), ([false], 1)]) :=
  sample_normalized_sorted _ (by decide)

/-- C2: adjoint is an involution: for every tree A,
`adjoint(adjoint(A)) == A` both as structural equality and as evaluated
equality; moreover `adjoint(A)` is a new node with `is_measurement` flipped
and the coefficient conjugated. -/
theorem adjoint_involution :
    (∀ A : OperatorNode, A.adjoint.adjoint = A) ∧
    (∀ (A : OperatorNode) (x : List Bool), A.adjoint.adjoint.eval x = A.eval x) ∧
    (∀ sf : CircuitStateFn, (OperatorNode.leaf sf).adjoint =
      .leaf ⟨sf.num_qubits, sf.amps, sf.coeff.conj, !sf.is_measurement⟩) :=
  ⟨adjoint_invol_node, fun A x => by rw [adjoint_invol_node], fun sf => rfl⟩
